import Mathlib

/-!
Verification development for the QG repository.

The repository contains a PEPit function class (`ConvexQGFunction`, in
`code/function_class/convex_qg_function.py`) whose `add_class_constraints`
method emits the interpolation constraints of convex functions with a
quadratic upper growth bound, and three worst-case analysis scripts that
symbolically unroll conjugate gradient, decreasing-step gradient descent
and heavy-ball momentum.

The development below is a shallow embedding of those four files:
recorded oracle triples become a `Triple` structure over rational
coordinate vectors, the emitted inequality constraints become the
syntactic type `Ineq` together with its arithmetic reading `Ineq.interp`,
and each unrolled loop becomes a structural recursion on the iteration
counter.  External PEPit machinery (the symbolic point algebra, the SDP
compilation and the solver) is abstracted: oracle answers are oracle-call
indexed parameters and the solver is an arbitrary function consumed
opaquely by the scripts.
-/

namespace QG

/-! ### Data model of the constraint generator

A recorded point of `ConvexQGFunction` is a triple `(x, g, f)` of a
location, a subgradient and a function value.  Locations and subgradients
are modelled as rational coordinate vectors of an arbitrary fixed
dimension `d`, which keeps equality of triples decidable exactly as the
Python tuple comparison in `add_class_constraints` is. -/

/-- Coordinate vectors used for abstract points and subgradients. -/
abbrev QVec (d : ℕ) := Fin d → ℚ

/-- Euclidean pairing of two coordinate vectors; the reading of the
PEPit product `gj * (xi - xj)` and of the square `gj ** 2`. -/
def dotQ {d : ℕ} (v w : QVec d) : ℚ := ∑ i, v i * w i

/-- A recorded oracle triple `(x, g, f)` of `ConvexQGFunction`:
location, subgradient and function value. -/
structure Triple (d : ℕ) where
  x : QVec d
  g : QVec d
  f : ℚ
deriving DecidableEq

/-- A constraint emitted by `add_class_constraints`: either the one-sided
inequality with the quadratic correction term (first loop of the method)
or the plain convexity inequality (second loop).  The `qgp` form stores
the growth parameter `L` appearing in its coefficient `1 / (2 L)`. -/
inductive Ineq (d : ℕ) where
  | qgp (L : ℚ) (i j : Triple d)
  | cvx (i j : Triple d)
deriving DecidableEq

/-- Arithmetic reading of an emitted constraint. -/
def Ineq.interp {d : ℕ} : Ineq d → Prop
  | .qgp L i j => i.f - j.f ≥ dotQ j.g (i.x - j.x) + 1 / (2 * L) * dotQ j.g j.g
  | .cvx i j => i.f - j.f ≥ dotQ j.g (i.x - j.x)

/-- Left operand (the triple providing `f_i` and `x_i`) of a constraint. -/
def Ineq.lhs {d : ℕ} : Ineq d → Triple d
  | .qgp _ i _ => i
  | .cvx i _ => i

/-- Right operand (the triple providing `f_j`, `g_j` and `x_j`). -/
def Ineq.rhs {d : ℕ} : Ineq d → Triple d
  | .qgp _ _ j => j
  | .cvx _ j => j

/-- Whether the constraint carries the quadratic correction term
`1 / (2 L) * gj ** 2`. -/
def Ineq.hasQuadTerm {d : ℕ} : Ineq d → Bool
  | .qgp _ _ _ => true
  | .cvx _ _ => false

/-! ### The constraint generator

`add_class_constraints` runs two nested loops.  The first iterates over
`self.list_of_stationary_points` and `self.list_of_points`, compares the
two triples by `point_i != point_j`, and emits the one-sided constraint.
The second enumerates `self.list_of_points` twice, compares the running
indices `i != j`, and emits the plain convexity constraint. -/

/-- First loop of `add_class_constraints`: for every stationary triple
`point_i` and every recorded triple `point_j` with `point_i != point_j`,
emit `fi - fj >= gj * (xi - xj) + 1 / (2 * L) * gj ** 2`. -/
def qgpConstraints {d : ℕ} (L : ℚ) (stat pts : List (Triple d)) : List (Ineq d) :=
  stat.flatMap fun pi =>
    (pts.filter fun pj => pi ≠ pj).map fun pj => Ineq.qgp L pi pj

/-- Second loop of `add_class_constraints`: for every enumerated pair
`(i, point_i)` and `(j, point_j)` of recorded triples with `i != j`,
emit `fi - fj >= gj * (xi - xj)`. -/
def convexConstraints {d : ℕ} (pts : List (Triple d)) : List (Ineq d) :=
  pts.enum.flatMap fun pi =>
    (pts.enum.filter fun pj => pi.1 ≠ pj.1).map fun pj => Ineq.cvx pi.2 pj.2

/-- The full list of constraints registered by one call to
`add_class_constraints`, in emission order. -/
def addClassConstraints {d : ℕ} (L : ℚ) (pts stat : List (Triple d)) : List (Ineq d) :=
  qgpConstraints L stat pts ++ convexConstraints pts

/-! ### The owning function object

`ConvexQGFunction` stores the parameter `L = param['L']` at construction
and inherits from the PEPit `Function` base class the growing lists of
recorded points, stationary points and registered constraints.
`add_class_constraints` reads the two point lists and `L` and appends the
emitted constraints; it mutates nothing else. -/

/-- State of a `ConvexQGFunction` instance: the stored parameter and the
lists accumulated on the object. -/
structure FuncState (d : ℕ) where
  L : ℚ
  list_of_points : List (Triple d)
  list_of_stationary_points : List (Triple d)
  list_of_constraints : List (Ineq d)

/-- Construction of a fresh `ConvexQGFunction` with parameter `L`:
`__init__` stores `self.L = param['L']` unchecked, and the inherited
lists start empty. -/
def mkConvexQGFunction (d : ℕ) (L : ℚ) : FuncState d :=
  { L := L
    list_of_points := []
    list_of_stationary_points := []
    list_of_constraints := [] }

/-- Effect of one call to `add_class_constraints` on the function object:
every emitted constraint is registered through `add_constraint`, and the
point lists and `L` are left untouched. -/
def runAddClassConstraints {d : ℕ} (s : FuncState d) : FuncState d :=
  { s with
    list_of_constraints :=
      s.list_of_constraints ++
        addClassConstraints s.L s.list_of_points s.list_of_stationary_points }

/-! ### Counting helpers -/

/-- Filtering away the occurrences of an element that occurs exactly once
shortens a list by exactly one. -/
lemma length_filter_ne_of_count_one {α : Type} [DecidableEq α] (a : α)
    (l : List α) (hl : l.count a = 1) :
    (l.filter fun b => a ≠ b).length + 1 = l.length := by
  induction l with
  | nil => simp at hl
  | cons b t ih =>
    rw [List.count_cons] at hl
    by_cases hba : b = a
    · subst hba
      simp only [beq_self_eq_true, if_true] at hl
      have ht : t.count b = 0 := by omega
      have hnm : b ∉ t := by
        intro hmem
        exact absurd ht (by simpa using (List.count_pos_iff.mpr hmem).ne')
      have hfilter : (t.filter fun c => b ≠ c) = t := by
        apply List.filter_eq_self.mpr
        intro c hc
        simp only [decide_eq_true_eq]
        intro hbc
        exact hnm (hbc ▸ hc)
      rw [List.filter_cons_of_neg (by simp), hfilter]
      simp
    · have hbne : (b == a) = false := by simpa using hba
      rw [hbne, if_neg (by simp)] at hl
      have := ih (by omega)
      have hkeep : (a ≠ b) := fun h => hba h.symm
      simp only [List.filter_cons, decide_eq_true_eq]
      rw [if_pos hkeep]
      simpa using this

/-- Every stationary triple that occurs exactly once in the point list
contributes exactly `|P| - 1` one-sided constraints. -/
lemma qgpConstraints_length {d : ℕ} (L : ℚ) (stat pts : List (Triple d))
    (hnd : pts.Nodup) (hsub : ∀ s ∈ stat, s ∈ pts) :
    (qgpConstraints L stat pts).length = stat.length * (pts.length - 1) := by
  unfold qgpConstraints
  rw [List.length_flatMap]
  have h1 : ∀ s ∈ stat,
      (List.length ∘ fun pi =>
        (pts.filter fun pj => pi ≠ pj).map fun pj => Ineq.qgp L pi pj) s
        = pts.length - 1 := by
    intro s hs
    simp only [Function.comp, List.length_map]
    have hc := List.count_eq_one_of_mem hnd (hsub s hs)
    have := length_filter_ne_of_count_one s pts hc
    omega
  rw [List.map_congr_left h1, List.map_const', List.sum_replicate, smul_eq_mul]

/-- Filtering the enumerated point list by a fixed distinct index keeps
exactly `|P| - 1` entries. -/
lemma enum_filter_ne_length {α : Type} (l : List α) (pi : ℕ × α)
    (hpi : pi ∈ l.enum) :
    (l.enum.filter fun pj => pi.1 ≠ pj.1).length = l.length - 1 := by
  have hmem : pi.1 ∈ List.range l.length := by
    rw [← List.enum_map_fst l]
    exact List.mem_map_of_mem Prod.fst hpi
  have hcount : (List.range l.length).count pi.1 = 1 :=
    List.count_eq_one_of_mem (List.nodup_range _) hmem
  have hlen := length_filter_ne_of_count_one pi.1 (List.range l.length) hcount
  rw [List.length_range] at hlen
  have hchain : (l.enum.filter fun pj => pi.1 ≠ pj.1).length
      = ((List.range l.length).filter fun k => pi.1 ≠ k).length := by
    rw [← List.countP_eq_length_filter, ← List.countP_eq_length_filter,
      ← List.enum_map_fst l, List.countP_map]
    rfl
  rw [hchain]
  omega

/-- The index-guarded double loop over the point list emits exactly
`|P| * (|P| - 1)` plain convexity constraints. -/
lemma convexConstraints_length {d : ℕ} (pts : List (Triple d)) :
    (convexConstraints pts).length = pts.length * (pts.length - 1) := by
  unfold convexConstraints
  rw [List.length_flatMap]
  have h1 : ∀ pi ∈ pts.enum,
      (List.length ∘ fun pi =>
        (pts.enum.filter fun pj => pi.1 ≠ pj.1).map fun pj => Ineq.cvx pi.2 pj.2) pi
        = pts.length - 1 := by
    intro pi hpi
    simp only [Function.comp, List.length_map]
    exact enum_filter_ne_length pts pi hpi
  rw [List.map_congr_left h1, List.map_const', List.sum_replicate, smul_eq_mul,
    List.enum_length]

/-- Shape of the members of the first loop's output. -/
lemma mem_qgpConstraints {d : ℕ} {L : ℚ} {stat pts : List (Triple d)} {c : Ineq d}
    (hc : c ∈ qgpConstraints L stat pts) :
    ∃ i j, i ∈ stat ∧ j ∈ pts ∧ i ≠ j ∧ c = Ineq.qgp L i j := by
  unfold qgpConstraints at hc
  rw [List.mem_flatMap] at hc
  obtain ⟨pi, hpi, hc⟩ := hc
  rw [List.mem_map] at hc
  obtain ⟨pj, hpj, rfl⟩ := hc
  rw [List.mem_filter] at hpj
  exact ⟨pi, pj, hpi, hpj.1, by simpa using hpj.2, rfl⟩

/-- Shape of the members of the second loop's output. -/
lemma mem_convexConstraints {d : ℕ} {pts : List (Triple d)} {c : Ineq d}
    (hc : c ∈ convexConstraints pts) :
    ∃ pi pj : ℕ × Triple d,
      pi ∈ pts.enum ∧ pj ∈ pts.enum ∧ pi.1 ≠ pj.1 ∧ c = Ineq.cvx pi.2 pj.2 := by
  unfold convexConstraints at hc
  rw [List.mem_flatMap] at hc
  obtain ⟨pi, hpi, hc⟩ := hc
  rw [List.mem_map] at hc
  obtain ⟨pj, hpj, rfl⟩ := hc
  rw [List.mem_filter] at hpj
  exact ⟨pi, pj, hpi, hpj.1, by simpa using hpj.2, rfl⟩

/-- Entries of the enumerated list at distinct indices are distinct
elements of a duplicate-free list. -/
lemma enum_snd_ne {α : Type} {l : List α} (hnd : l.Nodup) {pi pj : ℕ × α}
    (hpi : pi ∈ l.enum) (hpj : pj ∈ l.enum) (hne : pi.1 ≠ pj.1) :
    pi.2 ≠ pj.2 := by
  intro heq
  have hlt : pi.1 < l.length := by
    have hm : pi.1 ∈ List.range l.length := by
      rw [← List.enum_map_fst l]
      exact List.mem_map_of_mem Prod.fst hpi
    simpa using hm
  rw [List.mem_enum_iff_getElem?] at hpi hpj
  exact hne (List.getElem?_inj hlt hnd (by rw [hpi, hpj, heq]))

/-- C1: for a point list of pairwise-distinct triples whose stationary
sub-list is contained in it, a single call to `add_class_constraints`
registers exactly `|S| * (|P| - 1) + |P| * (|P| - 1)` inequality
constraints, and no emitted constraint pairs a triple with itself. -/
theorem c1_add_class_constraints_count {d : ℕ} (L : ℚ) (pts stat : List (Triple d))
    (hnd : pts.Nodup) (hsub : ∀ s ∈ stat, s ∈ pts) :
    (addClassConstraints L pts stat).length
      = stat.length * (pts.length - 1) + pts.length * (pts.length - 1) ∧
    ∀ c ∈ addClassConstraints L pts stat, c.lhs ≠ c.rhs := by
  constructor
  · rw [addClassConstraints, List.length_append,
      qgpConstraints_length L stat pts hnd hsub, convexConstraints_length]
  · intro c hc
    rw [addClassConstraints, List.mem_append] at hc
    rcases hc with hc | hc
    · obtain ⟨i, j, _, _, hne, rfl⟩ := mem_qgpConstraints hc
      simpa [Ineq.lhs, Ineq.rhs] using hne
    · obtain ⟨pi, pj, hpi, hpj, hne, rfl⟩ := mem_convexConstraints hc
      simpa [Ineq.lhs, Ineq.rhs] using enum_snd_ne hnd hpi hpj hne

/-- Sample triple over the zero-dimensional coordinate model,
distinguished by its function value. -/
def sampleTriple (c : ℚ) : Triple 0 :=
  { x := fun _ => c, g := fun _ => c, f := c }

/-- Sample recorded point list: one stationary and two further triples. -/
def samplePts : List (Triple 0) :=
  [sampleTriple 0, sampleTriple 1, sampleTriple 2]

/-- Sample stationary sub-list. -/
def sampleStat : List (Triple 0) :=
  [sampleTriple 0]

/-- Concrete instance of C1: three pairwise-distinct recorded triples,
one of them stationary, yield `1 * 2 + 3 * 2 = 8` constraints. -/
theorem c1_add_class_constraints_count_witness :
    samplePts.Nodup ∧
    ((addClassConstraints 1 samplePts sampleStat).length
        = sampleStat.length * (samplePts.length - 1)
          + samplePts.length * (samplePts.length - 1) ∧
      ∀ c ∈ addClassConstraints 1 samplePts sampleStat, c.lhs ≠ c.rhs) :=
  ⟨by simp [samplePts, sampleTriple, Triple.mk.injEq],
    c1_add_class_constraints_count 1 samplePts sampleStat
      (by simp [samplePts, sampleTriple, Triple.mk.injEq])
      (by simp [samplePts, sampleStat])⟩

/-- Summing a function that is `1` at a single value and `0` elsewhere
over a list counts the occurrences of that value. -/
lemma sum_map_count_ite {α : Type} [DecidableEq α] (i : α) (l : List α)
    (g : α → ℕ) (hgi : g i = 1) (hg0 : ∀ s, s ≠ i → g s = 0) :
    (l.map g).sum = l.count i := by
  induction l with
  | nil => simp
  | cons b t ih =>
    rw [List.map_cons, List.sum_cons, ih, List.count_cons]
    by_cases hbi : b = i
    · subst hbi
      simp [hgi, Nat.add_comm]
    · have hf : (i == b) = false := by
        simpa using fun h => hbi h.symm
      simp [hg0 b hbi, hf, hbi]

/-- The first loop emits the one-sided constraint for a given admissible
pair exactly once. -/
lemma count_qgpConstraints {d : ℕ} (L : ℚ) {stat pts : List (Triple d)}
    {i j : Triple d} (hnd : pts.Nodup) (hstat : stat.Nodup)
    (hi : i ∈ stat) (hj : j ∈ pts) (hij : i ≠ j) :
    (qgpConstraints L stat pts).count (Ineq.qgp L i j) = 1 := by
  unfold qgpConstraints
  rw [List.count_flatMap]
  have hinj : Function.Injective (fun pj => Ineq.qgp L i pj) := by
    intro a b h
    simpa [Ineq.qgp.injEq] using h
  have hsum := sum_map_count_ite i stat
    (List.count (Ineq.qgp L i j) ∘ fun pi =>
      (pts.filter fun pj => pi ≠ pj).map fun pj => Ineq.qgp L pi pj)
    ?_ ?_
  · rw [hsum, List.count_eq_one_of_mem hstat hi]
  · have h1 : List.count (Ineq.qgp L i j)
        ((pts.filter fun pj => i ≠ pj).map fun pj => Ineq.qgp L i pj)
        = List.count j (pts.filter fun pj => i ≠ pj) :=
      List.count_map_of_injective _ _ hinj _
    have h2 : List.count j (pts.filter fun pj => i ≠ pj) = List.count j pts :=
      List.count_filter (by simpa using hij)
    simp only [Function.comp]
    rw [h1, h2, List.count_eq_one_of_mem hnd hj]
  · intro s hs
    simp only [Function.comp]
    rw [List.count_eq_zero]
    intro hmem
    rw [List.mem_map] at hmem
    obtain ⟨pj, _, heq⟩ := hmem
    rw [Ineq.qgp.injEq] at heq
    exact hs heq.2.1

/-- The second loop never emits a constraint with the quadratic term. -/
lemma qgp_not_mem_convexConstraints {d : ℕ} {pts : List (Triple d)}
    {L : ℚ} {i j : Triple d} : Ineq.qgp L i j ∉ convexConstraints pts := by
  intro h
  obtain ⟨pi, pj, _, _, _, heq⟩ := mem_convexConstraints h
  exact absurd heq (by simp)

/-- C2: every constraint carrying the quadratic correction term reads
`f_i - f_j ≥ g_j (x_i - x_j) + 1 / (2 L) ‖g_j‖²` with its left operand a
stationary triple and its right operand a distinct recorded triple, and
each such ordered pair yields that constraint exactly once. -/
theorem c2_quadratic_constraint_stationary_lhs {d : ℕ} (L : ℚ)
    (pts stat : List (Triple d)) (hnd : pts.Nodup) (hstat : stat.Nodup) :
    (∀ c ∈ addClassConstraints L pts stat, c.hasQuadTerm = true →
      ∃ i j, i ∈ stat ∧ j ∈ pts ∧ i ≠ j ∧ c = Ineq.qgp L i j ∧
        (c.interp ↔
          i.f - j.f ≥ dotQ j.g (i.x - j.x) + 1 / (2 * L) * dotQ j.g j.g)) ∧
    ∀ i ∈ stat, ∀ j ∈ pts, i ≠ j →
      (addClassConstraints L pts stat).count (Ineq.qgp L i j) = 1 := by
  constructor
  · intro c hc hquad
    rw [addClassConstraints, List.mem_append] at hc
    rcases hc with hc | hc
    · obtain ⟨i, j, hi, hj, hij, rfl⟩ := mem_qgpConstraints hc
      exact ⟨i, j, hi, hj, hij, rfl, Iff.rfl⟩
    · obtain ⟨pi, pj, _, _, _, rfl⟩ := mem_convexConstraints hc
      simp [Ineq.hasQuadTerm] at hquad
  · intro i hi j hj hij
    rw [addClassConstraints, List.count_append,
      count_qgpConstraints L hnd hstat hi hj hij,
      List.count_eq_zero.mpr qgp_not_mem_convexConstraints]

/-- Concrete instance of C2: in the three-point sample the one-sided
constraint pairing the stationary triple with the first non-stationary
triple is registered exactly once. -/
theorem c2_quadratic_constraint_stationary_lhs_witness :
    sampleStat.Nodup ∧
    (addClassConstraints 1 samplePts sampleStat).count
      (Ineq.qgp 1 (sampleTriple 0) (sampleTriple 1)) = 1 :=
  ⟨by simp [sampleStat],
    (c2_quadratic_constraint_stationary_lhs 1 samplePts sampleStat
        (by simp [samplePts, sampleTriple, Triple.mk.injEq])
        (by simp [sampleStat])).2
      (sampleTriple 0) (by simp [sampleStat])
      (sampleTriple 1) (by simp [samplePts])
      (by simp [sampleTriple, Triple.mk.injEq])⟩

/-- The second loop emits the plain convexity constraint for every
ordered pair of distinct indices. -/
lemma cvx_mem_convexConstraints {d : ℕ} (pts : List (Triple d))
    (i j : Fin pts.length) (hij : (i : ℕ) ≠ (j : ℕ)) :
    Ineq.cvx (pts.get i) (pts.get j) ∈ convexConstraints pts := by
  unfold convexConstraints
  rw [List.mem_flatMap]
  refine ⟨((i : ℕ), pts.get i), ?_, ?_⟩
  · rw [List.mem_enum_iff_getElem?]
    simp [List.getElem?_eq_getElem i.isLt, List.get_eq_getElem]
  · rw [List.mem_map]
    refine ⟨((j : ℕ), pts.get j), ?_, rfl⟩
    rw [List.mem_filter]
    refine ⟨?_, by simpa using hij⟩
    rw [List.mem_enum_iff_getElem?]
    simp [List.getElem?_eq_getElem j.isLt, List.get_eq_getElem]

/-- C3: for every ordered pair of distinct indices into the recorded
point list, `add_class_constraints` emits the plain convexity cut, and
the two orderings of an unordered pair are two distinct constraints. -/
theorem c3_convexity_both_orderings {d : ℕ} (L : ℚ)
    (pts stat : List (Triple d)) (hnd : pts.Nodup)
    (i j : Fin pts.length) (hij : (i : ℕ) ≠ (j : ℕ)) :
    Ineq.cvx (pts.get i) (pts.get j) ∈ addClassConstraints L pts stat ∧
    Ineq.cvx (pts.get j) (pts.get i) ∈ addClassConstraints L pts stat ∧
    Ineq.cvx (pts.get i) (pts.get j) ≠ Ineq.cvx (pts.get j) (pts.get i) := by
  have hne : pts.get i ≠ pts.get j := by
    intro h
    exact hij (congrArg (fun k : Fin pts.length => (k : ℕ))
      ((List.Nodup.get_inj_iff hnd).mp h))
  refine ⟨?_, ?_, ?_⟩
  · exact List.mem_append_right _ (cvx_mem_convexConstraints pts i j hij)
  · exact List.mem_append_right _
      (cvx_mem_convexConstraints pts j i fun h => hij h.symm)
  · intro h
    rw [Ineq.cvx.injEq] at h
    exact hne h.1

/-- First sample index. -/
def sampleIdx0 : Fin samplePts.length := ⟨0, by simp [samplePts]⟩

/-- Second sample index. -/
def sampleIdx1 : Fin samplePts.length := ⟨1, by simp [samplePts]⟩

/-- Concrete instance of C3: in the three-point sample both orderings of
the first two recorded triples are emitted and differ. -/
theorem c3_convexity_both_orderings_witness :
    Ineq.cvx (samplePts.get sampleIdx0) (samplePts.get sampleIdx1)
        ∈ addClassConstraints 1 samplePts sampleStat ∧
    Ineq.cvx (samplePts.get sampleIdx1) (samplePts.get sampleIdx0)
        ∈ addClassConstraints 1 samplePts sampleStat ∧
    Ineq.cvx (samplePts.get sampleIdx0) (samplePts.get sampleIdx1)
        ≠ Ineq.cvx (samplePts.get sampleIdx1) (samplePts.get sampleIdx0) :=
  c3_convexity_both_orderings 1 samplePts sampleStat
    (by simp [samplePts, sampleTriple, Triple.mk.injEq])
    sampleIdx0 sampleIdx1 (by simp [sampleIdx0, sampleIdx1])

/-- C4: one call to `add_class_constraints` reads only the point lists
and `L`; a second call on the unchanged object appends the identical
constraint sequence again, with no hidden state influencing the output. -/
theorem c4_generator_deterministic {d : ℕ} (s : FuncState d) :
    (runAddClassConstraints s).L = s.L ∧
    (runAddClassConstraints s).list_of_points = s.list_of_points ∧
    (runAddClassConstraints s).list_of_stationary_points
      = s.list_of_stationary_points ∧
    (runAddClassConstraints (runAddClassConstraints s)).list_of_constraints
      = s.list_of_constraints
        ++ addClassConstraints s.L s.list_of_points s.list_of_stationary_points
        ++ addClassConstraints s.L s.list_of_points s.list_of_stationary_points :=
  ⟨rfl, rfl, rfl, by simp [runAddClassConstraints]⟩

/-! ### Algorithm unrollers

The three scripts unroll a fixed number of iterations against the
symbolic oracle of the declared `ConvexQGFunction`.  The oracle is
abstracted: the subgradient returned by the `t`-th oracle call is
`grad t` (each call yields a fresh subgradient, `reuse_gradient` being
false), function values are likewise abstract, and the external SDP
layer is an arbitrary function `solve` applied to the single registered
performance-metric expression.  Iterates live in an arbitrary real
vector space.  The script parameter `n` is a Python integer, so the
loop `for i in range(n)` runs `n.toNat` times. -/

variable {V : Type} [AddCommGroup V] [Module ℝ V]

/-- The scalar sequence of the decreasing-step script:
`u_0 = 1` and `u_t = u_{t-1} / 2 + sqrt((u_{t-1} / 2)^2 + 2)`. -/
noncomputable def useq : ℕ → ℝ
  | 0 => 1
  | t + 1 => useq t / 2 + Real.sqrt ((useq t / 2) ^ 2 + 2)

/-- Loop state of `wc_gradient_descent_qg_convex_decreasing`: the scalar
`u`, the current iterate `x`, the subgradient and value of the most
recent oracle call, and the log of the points the oracle was queried
at, in call order. -/
structure GDState (V : Type) where
  u : ℝ
  x : V
  g : V
  f : ℝ
  queries : List V

/-- State after `t` loop iterations of the decreasing-step script:
before the loop, `u = 1` and the oracle is called at `x0`; each
iteration updates `u`, takes the step `x ← x - (1 / (L u)) g`, and then
calls the oracle at the new iterate. -/
noncomputable def gdRun (L : ℝ) (grad : ℕ → V) (fval : ℕ → ℝ) (x0 : V) :
    ℕ → GDState V
  | 0 => { u := 1, x := x0, g := grad 0, f := fval 0, queries := [x0] }
  | t + 1 =>
    let s := gdRun L grad fval x0 t
    let u' := s.u / 2 + Real.sqrt ((s.u / 2) ^ 2 + 2)
    let gamma := 1 / (L * u')
    let x' := s.x - gamma • s.g
    { u := u'
      x := x'
      g := grad (t + 1)
      f := fval (t + 1)
      queries := s.queries ++ [x'] }

/-- Return value of `wc_gradient_descent_qg_convex_decreasing`: the
solved worst case on the metric `f - fs` and the closed-form reference
value `L / (2 u)` computed from the final loop state. -/
noncomputable def wcGD (L : ℝ) (grad : ℕ → V) (fval : ℕ → ℝ) (fs : ℝ)
    (solve : ℝ → ℝ) (x0 : V) (n : ℤ) : ℝ × ℝ :=
  let s := gdRun L grad fval x0 n.toNat
  let theoretical_tau := L / (2 * s.u)
  (solve (s.f - fs), theoretical_tau)

/-- Loop state of `wc_heavy_ball_momentum_qg_convex`: the current
iterate and the single retained previous iterate. -/
structure HBState (V : Type) where
  x_new : V
  x_old : V

/-- State after `t` iterations of the heavy-ball loop: both iterates
start at `x0`, and each iteration combines the gradient step of size
`1 / (L (t + 2))` with the momentum term `t / (t + 2) (x_new - x_old)`. -/
noncomputable def hbRun (L : ℝ) (grad : ℕ → V) (x0 : V) : ℕ → HBState V
  | 0 => { x_new := x0, x_old := x0 }
  | t + 1 =>
    let s := hbRun L grad x0 t
    let x_next := s.x_new - (1 / (L * ((t : ℝ) + 2))) • grad t
      + ((t : ℝ) / ((t : ℝ) + 2)) • (s.x_new - s.x_old)
    { x_new := x_next, x_old := s.x_new }

/-- Return value of `wc_heavy_ball_momentum_qg_convex`: the solved worst
case on the metric `func.value(x_new) - fs` and the closed-form
reference value `L / (2 (n + 1))`. -/
noncomputable def wcHB (L : ℝ) (grad : ℕ → V) (fval : V → ℝ) (fs : ℝ)
    (solve : ℝ → ℝ) (x0 : V) (n : ℤ) : ℝ × ℝ :=
  let s := hbRun L grad x0 n.toNat
  (solve (fval s.x_new - fs), L / (2 * ((n : ℝ) + 1)))

/-- Loop state of `wc_conjugate_gradient_qg_convex`: the current
iterate, the value returned by the most recent `exact_linesearch_step`
call (`none` while the Python name `fx` is still unbound), and the
growing list of search directions. -/
structure CGState (V : Type) where
  x_new : V
  fx : Option ℝ
  span : List V

/-- State after `t` iterations of the conjugate-gradient loop.  The
external line search is abstracted: the `t`-th call returns the triple
`ls t = (x_new, gx, fx)`.  Each iteration appends `gx` and the
displacement `x_old - x_new` to the span. -/
def cgRun (ls : ℕ → V × V × ℝ) (x0 g0 : V) : ℕ → CGState V
  | 0 => { x_new := x0, fx := none, span := [g0] }
  | t + 1 =>
    let s := cgRun ls x0 g0 t
    let r := ls t
    { x_new := r.1
      fx := some r.2.2
      span := (s.span ++ [r.2.1]) ++ [s.x_new - r.1] }

/-- Return value of `wc_conjugate_gradient_qg_convex`: `none` models the
unhandled `NameError` raised when `set_performance_metric(fx - fs)` is
reached with `fx` unbound; otherwise the solved worst case on the
metric `fx - fs` and the closed-form reference value `L / (2 (n + 1))`. -/
noncomputable def wcCG (L : ℝ) (ls : ℕ → V × V × ℝ) (fs : ℝ)
    (solve : ℝ → ℝ) (x0 g0 : V) (n : ℤ) : Option (ℝ × ℝ) :=
  match (cgRun ls x0 g0 n.toNat).fx with
  | none => none
  | some fx => some (solve (fx - fs), L / (2 * ((n : ℝ) + 1)))

/-- The loop variable `u` of the decreasing-step script follows the
recurrence sequence. -/
lemma gdRun_u (L : ℝ) (grad : ℕ → V) (fval : ℕ → ℝ) (x0 : V) :
    ∀ t, (gdRun L grad fval x0 t).u = useq t := by
  intro t
  induction t with
  | zero => rfl
  | succ k ih =>
    show (gdRun L grad fval x0 k).u / 2
        + Real.sqrt (((gdRun L grad fval x0 k).u / 2) ^ 2 + 2) = useq (k + 1)
    rw [ih]
    rfl

/-- C5: at iteration `t` the decreasing-step script applies the step
size `1 / (L u_{t+1})` along the last returned subgradient, where `u`
satisfies `u_0 = 1` and the stated recurrence, and the oracle is called
exactly at the successive iterates, each update happening before the
next call. -/
theorem c5_gd_decreasing_steps (L : ℝ) (grad : ℕ → V) (fval : ℕ → ℝ)
    (x0 : V) (t : ℕ) :
    useq 0 = 1 ∧
    (gdRun L grad fval x0 t).u = useq t ∧
    (gdRun L grad fval x0 (t + 1)).x
      = (gdRun L grad fval x0 t).x
        - (1 / (L * useq (t + 1))) • (gdRun L grad fval x0 t).g ∧
    (gdRun L grad fval x0 t).g = grad t ∧
    (gdRun L grad fval x0 t).queries
      = (List.range (t + 1)).map fun i => (gdRun L grad fval x0 i).x := by
  refine ⟨rfl, gdRun_u L grad fval x0 t, ?_, ?_, ?_⟩
  · show (gdRun L grad fval x0 t).x
        - (1 / (L * ((gdRun L grad fval x0 t).u / 2
            + Real.sqrt (((gdRun L grad fval x0 t).u / 2) ^ 2 + 2))))
          • (gdRun L grad fval x0 t).g
      = (gdRun L grad fval x0 t).x
        - (1 / (L * useq (t + 1))) • (gdRun L grad fval x0 t).g
    rw [gdRun_u L grad fval x0 t]
    rfl
  · cases t with
    | zero => rfl
    | succ k => rfl
  · induction t with
    | zero => rfl
    | succ k ih =>
      show (gdRun L grad fval x0 k).queries ++ [(gdRun L grad fval x0 (k + 1)).x]
          = (List.range (k + 2)).map fun i => (gdRun L grad fval x0 i).x
      rw [ih]
      conv_rhs => rw [List.range_succ, List.map_append]
      rfl

/-- The retained iterate of the heavy-ball state is the iterate of the
previous step (with the convention `x_{-1} = x_0`). -/
lemma hbRun_x_old (L : ℝ) (grad : ℕ → V) (x0 : V) :
    ∀ t, (hbRun L grad x0 t).x_old = (hbRun L grad x0 (t - 1)).x_new := by
  intro t
  cases t with
  | zero => rfl
  | succ k => rfl

/-- C6: every heavy-ball iteration takes the step
`x_{t+1} = x_t - (1 / (L (t + 2))) ∇f(x_t) + (t / (t + 2)) (x_t - x_{t-1})`
with `x_{-1} = x_0`, the state retains exactly the previous iterate in
`x_old`, and the registered performance metric is `f(x_n) - f⋆`. -/
theorem c6_heavy_ball_recurrence (L : ℝ) (grad : ℕ → V) (fval : V → ℝ)
    (fs : ℝ) (solve : ℝ → ℝ) (x0 : V) (t : ℕ) (n : ℤ) :
    (hbRun L grad x0 0).x_new = x0 ∧
    (hbRun L grad x0 (t + 1)).x_new
      = (hbRun L grad x0 t).x_new - (1 / (L * ((t : ℝ) + 2))) • grad t
        + ((t : ℝ) / ((t : ℝ) + 2))
          • ((hbRun L grad x0 t).x_new - (hbRun L grad x0 (t - 1)).x_new) ∧
    (hbRun L grad x0 (t + 1)).x_old = (hbRun L grad x0 t).x_new ∧
    (wcHB L grad fval fs solve x0 n).1
      = solve (fval (hbRun L grad x0 n.toNat).x_new - fs) := by
  refine ⟨rfl, ?_, rfl, rfl⟩
  show (hbRun L grad x0 t).x_new - (1 / (L * ((t : ℝ) + 2))) • grad t
      + ((t : ℝ) / ((t : ℝ) + 2))
        • ((hbRun L grad x0 t).x_new - (hbRun L grad x0 t).x_old)
    = _
  rw [hbRun_x_old L grad x0 t]

/-- C7: the recurrence sequence `u` is monotonically non-decreasing. -/
theorem c7_useq_monotone (t : ℕ) : useq t ≤ useq (t + 1) := by
  have h1 : Real.sqrt ((useq t / 2) ^ 2) ≤ Real.sqrt ((useq t / 2) ^ 2 + 2) :=
    Real.sqrt_le_sqrt (by linarith)
  rw [Real.sqrt_sq_eq_abs] at h1
  have h2 : useq t / 2 ≤ |useq t / 2| := le_abs_self _
  have h3 : useq (t + 1) = useq t / 2 + Real.sqrt ((useq t / 2) ^ 2 + 2) := rfl
  linarith

omit [Module ℝ V] in
/-- After a loop of `t + 1` iterations the Python name `fx` is bound to
the value of the last line-search call. -/
lemma cgRun_fx_succ (ls : ℕ → V × V × ℝ) (x0 g0 : V) (t : ℕ) :
    (cgRun ls x0 g0 (t + 1)).fx = some (ls t).2.2 := rfl

/-- C8: the second returned value of every unroller is the closed-form
reference bound — `L / (2 u_n)` for decreasing-step gradient descent and
`L / (2 (n + 1))` for heavy ball and (when `n ≥ 1`) conjugate gradient —
and it does not depend on the SDP solve result. -/
theorem c8_theoretical_values (L : ℝ) (grad : ℕ → V) (fval : ℕ → ℝ)
    (fvalHB : V → ℝ) (ls : ℕ → V × V × ℝ) (fs : ℝ) (solve solveB : ℝ → ℝ)
    (x0 g0 : V) (n : ℤ) :
    (wcGD L grad fval fs solve x0 n).2 = L / (2 * useq n.toNat) ∧
    (wcHB L grad fvalHB fs solve x0 n).2 = L / (2 * ((n : ℝ) + 1)) ∧
    (1 ≤ n → (wcCG L ls fs solve x0 g0 n).map Prod.snd
        = some (L / (2 * ((n : ℝ) + 1)))) ∧
    (wcGD L grad fval fs solve x0 n).2 = (wcGD L grad fval fs solveB x0 n).2 ∧
    (wcHB L grad fvalHB fs solve x0 n).2
      = (wcHB L grad fvalHB fs solveB x0 n).2 ∧
    (wcCG L ls fs solve x0 g0 n).map Prod.snd
      = (wcCG L ls fs solveB x0 g0 n).map Prod.snd := by
  have hgd : (wcGD L grad fval fs solve x0 n).2 = L / (2 * useq n.toNat) := by
    show L / (2 * (gdRun L grad fval x0 n.toNat).u) = _
    rw [gdRun_u]
  have hcg : ∀ sv : ℝ → ℝ, 1 ≤ n → (wcCG L ls fs sv x0 g0 n).map Prod.snd
      = some (L / (2 * ((n : ℝ) + 1))) := by
    intro sv hn
    obtain ⟨k, hk⟩ : ∃ k, n.toNat = k + 1 := ⟨n.toNat - 1, by omega⟩
    rw [wcCG, hk, cgRun_fx_succ]
    rfl
  refine ⟨hgd, rfl, hcg solve, rfl, rfl, ?_⟩
  · rw [wcCG, wcCG]
    cases (cgRun ls x0 g0 n.toNat).fx with
    | none => rfl
    | some fx => rfl

/-- Concrete instance of C8: for the conjugate-gradient script at
`n = 1` the reference bound is produced as stated. -/
theorem c8_theoretical_values_witness :
    (1 : ℤ) ≤ 1 ∧
    (wcCG (V := ℝ) 1 (fun _ => (0, 0, 0)) 0 id 0 0 1).map Prod.snd
      = some (1 / (2 * (((1 : ℤ) : ℝ) + 1))) :=
  ⟨le_refl 1,
    (c8_theoretical_values (V := ℝ) 1 (fun _ => 0) (fun _ => 0) (fun _ => 0)
        (fun _ => (0, 0, 0)) 0 id id 0 0 1).2.2.1 (le_refl 1)⟩

/-- C9: neither the scripts nor `ConvexQGFunction` validates its numeric
inputs: the parameter is stored exactly as given (including nonpositive
values), the number of emitted constraints never branches on `L`, and a
negative iteration count makes every unrolling loop body execute zero
times, leaving each script at its pre-loop state. -/
theorem c9_no_input_validation {d : ℕ} (Lq : ℚ) (L : ℝ) (grad : ℕ → V)
    (fval : ℕ → ℝ) (ls : ℕ → V × V × ℝ) (x0 g0 : V) (n : ℤ) (hn : n < 0) :
    (mkConvexQGFunction d Lq).L = Lq ∧
    (∀ La Lb : ℚ, ∀ pts stat : List (Triple d),
      (addClassConstraints La pts stat).length
        = (addClassConstraints Lb pts stat).length) ∧
    (gdRun L grad fval x0 n.toNat).u = 1 ∧
    (gdRun L grad fval x0 n.toNat).x = x0 ∧
    (gdRun L grad fval x0 n.toNat).queries = [x0] ∧
    (hbRun L grad x0 n.toNat).x_new = x0 ∧
    (hbRun L grad x0 n.toNat).x_old = x0 ∧
    (cgRun ls x0 g0 n.toNat).x_new = x0 ∧
    (cgRun ls x0 g0 n.toNat).fx = none ∧
    (cgRun ls x0 g0 n.toNat).span = [g0] := by
  have h0 : n.toNat = 0 := by omega
  rw [h0]
  refine ⟨rfl, ?_, rfl, rfl, rfl, rfl, rfl, rfl, rfl, rfl⟩
  intro La Lb pts stat
  simp only [addClassConstraints, qgpConstraints, List.length_append,
    List.length_flatMap, Function.comp_def, List.length_map]

/-- Concrete instance of C9: a negative stored parameter is kept as
given and a negative iteration count runs zero loop iterations. -/
theorem c9_no_input_validation_witness :
    (-1 : ℤ) < 0 ∧
    ((mkConvexQGFunction 0 (-1)).L = -1 ∧
      (∀ La Lb : ℚ, ∀ pts stat : List (Triple 0),
        (addClassConstraints La pts stat).length
          = (addClassConstraints Lb pts stat).length) ∧
      (gdRun (-1) (fun _ => (0 : ℝ)) (fun _ => 0) 0 (-1 : ℤ).toNat).u = 1 ∧
      (gdRun (-1) (fun _ => (0 : ℝ)) (fun _ => 0) 0 (-1 : ℤ).toNat).x = 0 ∧
      (gdRun (-1) (fun _ => (0 : ℝ)) (fun _ => 0) 0 (-1 : ℤ).toNat).queries
        = [0] ∧
      (hbRun (-1) (fun _ => (0 : ℝ)) 0 (-1 : ℤ).toNat).x_new = 0 ∧
      (hbRun (-1) (fun _ => (0 : ℝ)) 0 (-1 : ℤ).toNat).x_old = 0 ∧
      (cgRun (fun _ => ((0 : ℝ), (0 : ℝ), (0 : ℝ))) 0 0 (-1 : ℤ).toNat).x_new
        = 0 ∧
      (cgRun (fun _ => ((0 : ℝ), (0 : ℝ), (0 : ℝ))) 0 0 (-1 : ℤ).toNat).fx
        = none ∧
      (cgRun (fun _ => ((0 : ℝ), (0 : ℝ), (0 : ℝ))) 0 0 (-1 : ℤ).toNat).span
        = [0]) :=
  ⟨by decide,
    c9_no_input_validation (-1) (-1) (fun _ => (0 : ℝ)) (fun _ => 0)
      (fun _ => ((0 : ℝ), (0 : ℝ), (0 : ℝ))) 0 0 (-1) (by decide)⟩

omit [Module ℝ V] in
/-- C10: with `n = 0` the conjugate-gradient script reaches
`set_performance_metric` with the loop-local name `fx` unbound and
raises `NameError`; for `n ≥ 1` the metric is well defined and equals
the final value gap `f(x_n) - f⋆`. -/
theorem c10_cg_name_error_at_zero (L : ℝ) (ls : ℕ → V × V × ℝ) (fs : ℝ)
    (solve : ℝ → ℝ) (x0 g0 : V) (n : ℤ) (hn : 1 ≤ n) :
    wcCG L ls fs solve x0 g0 0 = none ∧
    (cgRun ls x0 g0 n.toNat).fx = some (ls (n.toNat - 1)).2.2 ∧
    wcCG L ls fs solve x0 g0 n
      = some (solve ((ls (n.toNat - 1)).2.2 - fs), L / (2 * ((n : ℝ) + 1))) := by
  obtain ⟨k, hk⟩ : ∃ k, n.toNat = k + 1 := ⟨n.toNat - 1, by omega⟩
  have hk1 : n.toNat - 1 = k := by omega
  refine ⟨rfl, ?_, ?_⟩
  · rw [hk1, hk, cgRun_fx_succ]
  · rw [wcCG, hk1, hk, cgRun_fx_succ]

/-- Concrete instance of C10: at `n = 0` the script fails with the
unbound name, and at `n = 1` the metric is the value gap of the single
line-search result. -/
theorem c10_cg_name_error_at_zero_witness :
    (1 : ℤ) ≤ 1 ∧
    wcCG (V := ℝ) 1 (fun _ => (0, 0, 0)) 0 id 0 0 0 = none ∧
    wcCG (V := ℝ) 1 (fun _ => (0, 0, 0)) 0 id 0 0 1
      = some ((0 : ℝ) - 0, 1 / (2 * (((1 : ℤ) : ℝ) + 1))) :=
  ⟨le_refl 1,
    (c10_cg_name_error_at_zero (V := ℝ) 1 (fun _ => (0, 0, 0)) 0 id 0 0 1
        (le_refl 1)).1,
    (c10_cg_name_error_at_zero (V := ℝ) 1 (fun _ => (0, 0, 0)) 0 id 0 0 1
        (le_refl 1)).2.2⟩

end QG
